import Mathlib

/-!
Shallow embedding of the micrograd-rs scalar autodiff engine
(src/engine.rs) and its neural-network layer (src/nn.rs).

The graph of reference-counted, mutex-guarded nodes is embedded as an
explicit heap: a list of node records addressed by stable indices, so
that `Arc::ptr_eq` becomes index equality.  The `f32` scalars of the
source are idealized as rationals; the numeric value of the hyperbolic
tangent is supplied as a parameter function (its value is never needed
by any claim).  The two worklist loops of the source (`traverse` and
`trace`) are embedded with an explicit fuel argument; the fuel
`Heap.tsize` is shown to be sufficient for every well-formed
(append-only, hence acyclic) heap.
-/

namespace Micrograd

/-- `Op` from src/engine.rs.  Node identifiers are heap indices: plain
naturals. -/
inductive Op where
  | ADD
  | SUB
  | MUL
  | POWI (n : Int)
  | TANH
deriving DecidableEq

/-- `Value<T>` from src/engine.rs with `T` idealized as the rationals;
the children are heap indices rather than reference-counted pointers. -/
structure Value where
  data : ℚ
  children : Option Nat × Option Nat
  op : Option Op
  label : String
  grad : ℚ
deriving DecidableEq

/-- The store of allocated nodes; a `Scalar` handle of the source is an
index into this list. -/
abbrev Heap := List Value

/-- The list of children actually referenced, in the order the source
pattern-matches them. -/
def childList : Option Nat × Option Nat → List Nat
  | (some a, some b) => [a, b]
  | (some a, none) => [a]
  | (none, some b) => [b]
  | (none, none) => []

def Heap.childrenAt (h : Heap) (i : Nat) : Option Nat × Option Nat :=
  ((h.get? i).map Value.children).getD (none, none)

def Heap.childIds (h : Heap) (i : Nat) : List Nat :=
  childList (h.childrenAt i)

def Heap.dataAt (h : Heap) (i : Nat) : ℚ :=
  ((h.get? i).map Value.data).getD 0

def Heap.gradAt (h : Heap) (i : Nat) : ℚ :=
  ((h.get? i).map Value.grad).getD 0

def Heap.opAt (h : Heap) (i : Nat) : Option Op :=
  ((h.get? i).map Value.op).getD none

def Heap.setGrad (h : Heap) (i : Nat) (g : ℚ) : Heap :=
  match h.get? i with
  | some v => h.set i { v with grad := g }
  | none => h

def Heap.addGrad (h : Heap) (i : Nat) (g : ℚ) : Heap :=
  match h.get? i with
  | some v => h.set i { v with grad := v.grad + g }
  | none => h

/-- Append-only construction makes every child index smaller than its
parent's index; this is the acyclicity invariant of the heap. -/
def Heap.WF (h : Heap) : Prop :=
  ∀ i, i < h.length → ∀ j ∈ h.childIds i, j < i

instance (h : Heap) : Decidable h.WF :=
  inferInstanceAs (Decidable (∀ i, i < h.length → ∀ j ∈ h.childIds i, j < i))

/-- `Scalar::new` (src/engine.rs line 52): allocate a leaf. -/
def Scalar.new (h : Heap) (x : ℚ) (label : String) : Heap × Nat :=
  (h ++ [{ data := x, children := (none, none), op := none, label := label, grad := 0 }],
   h.length)

/-- `impl Add for Scalar` (src/engine.rs line 358); `AddAssign` builds the
identical node. -/
def Scalar.add (h : Heap) (i j : Nat) : Heap × Nat :=
  (h ++ [{ data := h.dataAt i + h.dataAt j, children := (some i, some j),
           op := some Op.ADD, label := "", grad := 0 }],
   h.length)

/-- `impl Sub for Scalar` (src/engine.rs line 398). -/
def Scalar.sub (h : Heap) (i j : Nat) : Heap × Nat :=
  (h ++ [{ data := h.dataAt i - h.dataAt j, children := (some i, some j),
           op := some Op.SUB, label := "", grad := 0 }],
   h.length)

/-- `impl Mul for Scalar` (src/engine.rs line 419). -/
def Scalar.mul (h : Heap) (i j : Nat) : Heap × Nat :=
  (h ++ [{ data := h.dataAt i * h.dataAt j, children := (some i, some j),
           op := some Op.MUL, label := "", grad := 0 }],
   h.length)

/-- `Scalar::powi` (src/engine.rs line 462). -/
def Scalar.powi (h : Heap) (i : Nat) (n : Int) : Heap × Nat :=
  (h ++ [{ data := h.dataAt i ^ n, children := (some i, none),
           op := some (Op.POWI n), label := "", grad := 0 }],
   h.length)

/-- `Scalar::tanh` (src/engine.rs line 475); `tq` is the idealized
numeric tanh. -/
def Scalar.tanh (tq : ℚ → ℚ) (h : Heap) (i : Nat) : Heap × Nat :=
  (h ++ [{ data := tq (h.dataAt i), children := (some i, none),
           op := some Op.TANH, label := "", grad := 0 }],
   h.length)

/-- `impl PartialEq for Scalar` (src/engine.rs line 329): equality of the
two nodes' `data` fields only. -/
def Scalar.eq (h : Heap) (i j : Nat) : Bool :=
  h.dataAt i == h.dataAt j

/-- Tree-unfolding size of the graph below `i`; used as fuel for the two
worklist loops.  The fuel argument of `tsizeF` only bounds the recursion
depth: for a well-formed heap every child index is smaller, so depth
`i + 1` is enough and `tsize` is the exact unfolding size. -/
def tsizeF (h : Heap) : Nat → Nat → Nat
  | 0, _ => 1
  | fuel + 1, i => 1 + ((h.childIds i).map (tsizeF h fuel)).sum

def Heap.tsize (h : Heap) (i : Nat) : Nat :=
  tsizeF h (i + 1) i

/-- The worklist loop of `Scalar::traverse` (src/engine.rs lines 154-177):
a growing node list scanned by a pointer, each scanned node appending its
children (without any deduplication).  `none` means the fuel ran out
before the pointer caught up with the list. -/
def traverseLoop (h : Heap) : Nat → List Nat → Nat → Option (List Nat)
  | 0, nodes, pointer =>
    if pointer < nodes.length then none else some nodes
  | fuel + 1, nodes, pointer =>
    if pointer < nodes.length then
      traverseLoop h fuel (nodes ++ h.childIds (nodes.getD pointer 0)) (pointer + 1)
    else some nodes

def Scalar.traverse (h : Heap) (root : Nat) : List Nat :=
  (traverseLoop h (h.tsize root) [root] 0).getD []

/-- The find-or-append block that `Scalar::trace` (src/engine.rs) repeats
for each child slot: scan the discovered nodes for the child's identity;
if found record an edge to the existing position, otherwise append the
child and record an edge to the new last position. -/
def traceVisit (nodes : List Nat) (edges : List (Nat × Nat)) (pointer : Nat) (c : Nat) :
    List Nat × List (Nat × Nat) :=
  match nodes.findIdx? (fun s => s == c) with
  | some i => (nodes, edges ++ [(i, pointer)])
  | none =>
    let ns := nodes ++ [c]
    (ns, edges ++ [(ns.length - 1, pointer)])

/-- The worklist loop of `Scalar::trace` (src/engine.rs lines 179-259):
same scan as `traverse` but children are deduplicated by identity
(`Arc::ptr_eq`, here index equality) before being appended, and an edge
`(child position, pointer)` is recorded for every child slot — twice when
the two children of a binary node are the same reference. -/
def traceLoop (h : Heap) :
    Nat → List Nat → List (Nat × Nat) → Nat → Option (List Nat × List (Nat × Nat))
  | 0, nodes, edges, pointer =>
    if pointer < nodes.length then none else some (nodes, edges)
  | fuel + 1, nodes, edges, pointer =>
    if pointer < nodes.length then
      match h.childrenAt (nodes.getD pointer 0) with
      | (some c1, some c2) =>
        if c1 = c2 then
          match nodes.findIdx? (fun s => s == c1) with
          | some i =>
            traceLoop h fuel nodes (edges ++ [(i, pointer), (i, pointer)]) (pointer + 1)
          | none =>
            let ns := nodes ++ [c1]
            traceLoop h fuel ns
              (edges ++ [(ns.length - 1, pointer), (ns.length - 1, pointer)])
              (pointer + 1)
        else
          let st1 := traceVisit nodes edges pointer c1
          let st2 := traceVisit st1.1 st1.2 pointer c2
          traceLoop h fuel st2.1 st2.2 (pointer + 1)
      | (some c, none) | (none, some c) =>
        let st := traceVisit nodes edges pointer c
        traceLoop h fuel st.1 st.2 (pointer + 1)
      | (none, none) => traceLoop h fuel nodes edges (pointer + 1)
    else some (nodes, edges)

def Scalar.trace (h : Heap) (root : Nat) : List Nat × List (Nat × Nat) :=
  (traceLoop h (h.tsize root) [root] [] 0).getD ([root], [])

/-- `Scalar::cal_grad` (src/engine.rs lines 62-115): apply node `i`'s
local gradient rule, adding into its children's `grad`.  The order of the
two writes and the moment each operand's `data` is read follow the
source's lock/drop sequence. -/
def Scalar.cal_grad (h : Heap) (i : Nat) : Heap :=
  match h.opAt i, h.childrenAt i with
  | some Op.ADD, (some c1, some c2) =>
    let g := h.gradAt i
    (h.addGrad c1 g).addGrad c2 g
  | some Op.SUB, (some c1, some c2) =>
    let g := h.gradAt i
    (h.addGrad c1 g).addGrad c2 (-g)
  | some Op.MUL, (some c1, some c2) =>
    let g := h.gradAt i
    let d1 := h.dataAt c1
    let d2 := h.dataAt c2
    (h.addGrad c2 (d1 * g)).addGrad c1 (d2 * g)
  | some (Op.POWI n), (some c, none) =>
    h.addGrad c ((n : ℚ) * h.dataAt c ^ (n - 1) * h.gradAt i)
  | some Op.TANH, (some c, none) =>
    h.addGrad c ((1 - h.dataAt i ^ 2) * h.gradAt i)
  | _, _ => h

/-- The reset loop of `Scalar::backward` (src/engine.rs lines 120-123). -/
def zeroGradList (h : Heap) (l : List Nat) : Heap :=
  l.foldl (fun acc s => acc.setGrad s 0) h

/-- The propagation loop of `Scalar::backward` (src/engine.rs lines 129-131). -/
def propagateList (h : Heap) (l : List Nat) : Heap :=
  l.foldl Scalar.cal_grad h

/-- `Scalar::backward` (src/engine.rs lines 117-132): collect the
reachable nodes with `traverse`, zero their gradients, seed the root with
gradient 1, then run `cal_grad` once per position of the traverse list. -/
def Scalar.backward (h : Heap) (root : Nat) : Heap :=
  let scalars := Scalar.traverse h root
  propagateList ((zeroGradList h scalars).setGrad root 1) scalars

/-- Follows the spec wording of the propagation phase (spec §4.3 step 3):
reset the reachable nodes and seed the root exactly as `backward` does,
but apply the local gradient rules once per position of the deduplicated
trace's node list rather than once per position of the traverse list.
Used to compare the source's propagation order with the spec's. -/
def specBackwardTraceOrder (h : Heap) (root : Nat) : Heap :=
  let scalars := Scalar.traverse h root
  propagateList ((zeroGradList h scalars).setGrad root 1) (Scalar.trace h root).1

/-- Reachability along child references. -/
inductive Reachable (h : Heap) (root : Nat) : Nat → Prop
  | refl : Reachable h root root
  | step {j k : Nat} : Reachable h root j → k ∈ h.childIds j → Reachable h root k

/-- `NeuronError` from src/nn.rs. -/
inductive NeuronError where
  | InputLenErr
deriving DecidableEq

/-- `Neuron` from src/nn.rs: weight handles, a bias handle and the
nonlinearity flag. -/
structure Neuron where
  w : List Nat
  b : Nat
  nonlin : Bool
deriving DecidableEq

/-- The weight-sampling loop of `Neuron::new` (src/nn.rs lines 16-19);
the random source is the injected stream `rand` consumed at the running
counter. -/
def mkWeights (rand : Nat → ℚ) : Heap → Nat → Nat → Heap × Nat × List Nat
  | h, ctr, 0 => (h, ctr, [])
  | h, ctr, n + 1 =>
    let pw := Scalar.new h (rand ctr) ("")
    let rest := mkWeights rand pw.1 (ctr + 1) n
    (rest.1, rest.2.1, pw.2 :: rest.2.2)

/-- `Neuron::new` (src/nn.rs lines 12-26): `nin` sampled weights and a
zero bias. -/
def Neuron.new (h : Heap) (rand : Nat → ℚ) (ctr : Nat) (nin : Nat) (nonlin : Bool) :
    Heap × Nat × Neuron :=
  let ws := mkWeights rand h ctr nin
  let pb := Scalar.new ws.1 0 ("")
  (pb.1, ws.2.1, { w := ws.2.2, b := pb.2, nonlin := nonlin })

/-- The accumulation loop of `Neuron::output` (src/nn.rs lines 35-40):
`output += input[i] * w[i]` builds one MUL node and one ADD node per
index. -/
def dotLoop (h : Heap) (out : Nat) : List (Nat × Nat) → Heap × Nat
  | [] => (h, out)
  | p :: rest =>
    let pm := Scalar.mul h p.2 p.1
    let pa := Scalar.add pm.1 out pm.2
    dotLoop pa.1 pa.2 rest

/-- `Neuron::output` (src/nn.rs lines 28-49): a zero accumulator leaf is
allocated, then the length check runs; on mismatch the error is returned
and the accumulator is dropped (no heap escapes through the error). -/
def Neuron.output (tq : ℚ → ℚ) (h : Heap) (n : Neuron) (input : List Nat) :
    Except NeuronError (Heap × Nat) :=
  let p0 := Scalar.new h 0 ("")
  if n.w.length ≠ input.length then .error .InputLenErr
  else
    let pd := dotLoop p0.1 p0.2 (n.w.zip input)
    let pb := Scalar.add pd.1 pd.2 n.b
    if n.nonlin then
      let pt := Scalar.tanh tq pb.1 pb.2
      .ok (pt.1, pt.2)
    else .ok (pb.1, pb.2)

/-- `Layer` from src/nn.rs. -/
structure Layer where
  neurons : List Neuron
deriving DecidableEq

/-- The neuron-construction loop of `Layer::new` (src/nn.rs lines 65-69). -/
def mkNeurons (rand : Nat → ℚ) (nin : Nat) (nonlin : Bool) :
    Heap → Nat → Nat → Heap × Nat × List Neuron
  | h, ctr, 0 => (h, ctr, [])
  | h, ctr, k + 1 =>
    let pn := Neuron.new h rand ctr nin nonlin
    let rest := mkNeurons rand nin nonlin pn.1 pn.2.1 k
    (rest.1, rest.2.1, pn.2.2 :: rest.2.2)

/-- `Layer::new` (src/nn.rs lines 64-72). -/
def Layer.new (h : Heap) (rand : Nat → ℚ) (ctr : Nat) (nin nout : Nat) (nonlin : Bool) :
    Heap × Nat × Layer :=
  let r := mkNeurons rand nin nonlin h ctr nout
  (r.1, r.2.1, { neurons := r.2.2 })

/-- The neuron loop of `Layer::output` (src/nn.rs lines 77-81): the first
neuron error is propagated immediately by the `?` operator. -/
def layerOutputLoop (tq : ℚ → ℚ) :
    Heap → List Neuron → List Nat → Except NeuronError (Heap × List Nat)
  | h, [], _ => .ok (h, [])
  | h, n :: rest, input =>
    match Neuron.output tq h n input with
    | .error e => .error e
    | .ok p =>
      match layerOutputLoop tq p.1 rest input with
      | .error e => .error e
      | .ok q => .ok (q.1, p.2 :: q.2)

/-- `Layer::output` (src/nn.rs lines 74-84). -/
def Layer.output (tq : ℚ → ℚ) (h : Heap) (l : Layer) (input : List Nat) :
    Except NeuronError (Heap × List Nat) :=
  layerOutputLoop tq h l.neurons input

/-- `MLP` from src/nn.rs. -/
structure MLP where
  layers : List Layer
deriving DecidableEq

/-- The tail-layer loop of `MLP::new` (src/nn.rs lines 103-105), iterated
over the index list `0 .. nouts.len() - 1`. -/
def mkTailLayers (rand : Nat → ℚ) (nouts : List Nat) :
    Heap → Nat → List Nat → Heap × Nat × List Layer
  | h, ctr, [] => (h, ctr, [])
  | h, ctr, i :: rest =>
    let pl := Layer.new h rand ctr (nouts.getD i 0) (nouts.getD (i + 1) 0)
      (i != nouts.length - 2)
    let pr := mkTailLayers rand nouts pl.1 pl.2.1 rest
    (pr.1, pr.2.1, pl.2.2 :: pr.2.2)

/-- `MLP::new` (src/nn.rs lines 96-110): the first layer's flag is
`0 != nouts.len() - 1`; each further layer `i` gets `i != nouts.len() - 2`. -/
def MLP.new (h : Heap) (rand : Nat → ℚ) (ctr : Nat) (nin : Nat) (nouts : List Nat) :
    Heap × Nat × MLP :=
  if nouts.length > 0 then
    let p0 := Layer.new h rand ctr nin (nouts.getD 0 0) (0 != nouts.length - 1)
    if nouts.length > 1 then
      let pt := mkTailLayers rand nouts p0.1 p0.2.1 (List.range (nouts.length - 1))
      (pt.1, pt.2.1, { layers := p0.2.2 :: pt.2.2 })
    else (p0.1, p0.2.1, { layers := [p0.2.2] })
  else (h, ctr, { layers := [] })

/-- The layer loop of `MLP::output` (src/nn.rs lines 112-118). -/
def mlpOutputLoop (tq : ℚ → ℚ) :
    Heap → List Layer → List Nat → Except NeuronError (Heap × List Nat)
  | h, [], input => .ok (h, input)
  | h, l :: rest, input =>
    match Layer.output tq h l input with
    | .error e => .error e
    | .ok p => mlpOutputLoop tq p.1 rest p.2

/-- `MLP::output` (src/nn.rs lines 112-118). -/
def MLP.output (tq : ℚ → ℚ) (h : Heap) (m : MLP) (input : List Nat) :
    Except NeuronError (Heap × List Nat) :=
  mlpOutputLoop tq h m.layers input

/-- The graph of the engine unit test and of spec §8's trace-dedup
property: `e = (a + b) * c` with leaves `a = 1`, `b = 2`, `c = 4`. -/
def traceExample : Heap × Nat :=
  let pa := Scalar.new [] 1 ("a")
  let pb := Scalar.new pa.1 2 ("b")
  let pc := Scalar.new pb.1 4 ("c")
  let pd := Scalar.add pc.1 pa.2 pb.2
  Scalar.mul pd.1 pd.2 pc.2

/-- Spec §8's self-sum graph: `d = a + a` for a leaf `a` holding `x`. -/
def selfSumExample (x : ℚ) : Heap × Nat :=
  let pa := Scalar.new [] x ("a")
  Scalar.add pa.1 pa.2 pa.2

/-- A graph whose intermediate node is shared: `e = d + d` with
`d = a + b`; node `d` is reachable from `e` along two paths. -/
def sharedExample : Heap × Nat :=
  let pa := Scalar.new [] 1 ("a")
  let pb := Scalar.new pa.1 2 ("b")
  let pd := Scalar.add pb.1 pa.2 pb.2
  Scalar.add pd.1 pd.2 pd.2

/-- The graph `r = y * tanh y`: the tanh node's child is found again
during the trace after the tanh node itself was discovered. -/
def mixedExample : Heap × Nat :=
  let py := Scalar.new [] 1 ("y")
  let pt := Scalar.tanh (fun q => q) py.1 py.2
  Scalar.mul pt.1 py.2 pt.2

/-- Two distinct leaves holding the same data value. -/
def twoLeafExample : Heap :=
  (Scalar.new (Scalar.new [] 5 ("a")).1 5 ("b")).1

/-- The non-grad content of a node: two heaps of the same shape differ at
most in their gradient fields. -/
def Value.shape (v : Value) : ℚ × (Option Nat × Option Nat) × Option Op × String :=
  (v.data, v.children, v.op, v.label)

def Heap.sameShape (h h' : Heap) : Prop :=
  ∀ i : Nat, (h.get? i).map Value.shape = (h'.get? i).map Value.shape

/-- The trace example heap with stale gradients left on two of its nodes,
as if by an earlier differentiation pass. -/
def staleExample : Heap :=
  (traceExample.1.setGrad 0 5).setGrad 4 7

/-- Claim C4: tracing `e = (a + b) * c` with distinct leaves 1, 2, 4
yields the node-data sequence [12, 3, 4, 1, 2] in discovery order, the
edge list [(1,0), (2,0), (3,1), (4,1)], and the root at index 0. -/
theorem c4_trace_dedup :
    (Scalar.trace traceExample.1 traceExample.2).1.map traceExample.1.dataAt
      = [12, 3, 4, 1, 2] ∧
    (Scalar.trace traceExample.1 traceExample.2).2
      = [(1, 0), (2, 0), (3, 1), (4, 1)] ∧
    (Scalar.trace traceExample.1 traceExample.2).1.getD 0 0 = traceExample.2 := by
  have hn : (Scalar.trace traceExample.1 traceExample.2).1 = [4, 3, 2, 0, 1] := by decide
  refine ⟨?_, by decide, by decide⟩
  rw [hn]
  show [((1 : ℚ) + 2) * 4, (1 : ℚ) + 2, 4, 1, 2] = [12, 3, 4, 1, 2]
  norm_num

/-- Claim C1 counterexample: for `e = d + d` with `d = a + b`, the
propagation phase of `backward` visits the non-deduplicated traverse
list, not the deduplicated trace node list: the two lists differ, and the
gradient `backward` leaves on leaf `a` is 4 while propagating once per
position of the trace's node list leaves 2. -/
theorem c1_counterexample :
    Scalar.traverse sharedExample.1 sharedExample.2
      ≠ (Scalar.trace sharedExample.1 sharedExample.2).1 ∧
    (Scalar.backward sharedExample.1 sharedExample.2).gradAt 0 = 4 ∧
    (specBackwardTraceOrder sharedExample.1 sharedExample.2).gradAt 0 = 2 := by
  have ht : Scalar.traverse sharedExample.1 sharedExample.2 = [3, 2, 2, 0, 1, 0, 1] := by
    decide
  have htr : (Scalar.trace sharedExample.1 sharedExample.2).1 = [3, 2, 0, 1] := by decide
  have h1 : (zeroGradList sharedExample.1 [3, 2, 2, 0, 1, 0, 1]).setGrad sharedExample.2 1
      = [{ data := 1, children := (none, none), op := none, label := "a", grad := 0 },
         { data := 2, children := (none, none), op := none, label := "b", grad := 0 },
         { data := 1 + 2, children := (some 0, some 1), op := some Op.ADD, label := "",
           grad := 0 },
         { data := 1 + 2 + (1 + 2), children := (some 2, some 2), op := some Op.ADD,
           label := "", grad := 1 }] := rfl
  refine ⟨by decide, ?_, ?_⟩
  · have h2 : propagateList
        [{ data := 1, children := (none, none), op := none, label := "a", grad := 0 },
         { data := 2, children := (none, none), op := none, label := "b", grad := 0 },
         { data := 1 + 2, children := (some 0, some 1), op := some Op.ADD, label := "",
           grad := 0 },
         { data := 1 + 2 + (1 + 2), children := (some 2, some 2), op := some Op.ADD,
           label := "", grad := 1 }] [3, 2, 2, 0, 1, 0, 1]
        = [{ data := 1, children := (none, none), op := none, label := "a",
             grad := 0 + (0 + 1 + 1) + (0 + 1 + 1) },
           { data := 2, children := (none, none), op := none, label := "b",
             grad := 0 + (0 + 1 + 1) + (0 + 1 + 1) },
           { data := 1 + 2, children := (some 0, some 1), op := some Op.ADD, label := "",
             grad := 0 + 1 + 1 },
           { data := 1 + 2 + (1 + 2), children := (some 2, some 2), op := some Op.ADD,
             label := "", grad := 1 }] := rfl
    rw [Scalar.backward, ht, h1, h2]
    show (0 : ℚ) + (0 + 1 + 1) + (0 + 1 + 1) = 4
    norm_num
  · have h2 : propagateList
        [{ data := 1, children := (none, none), op := none, label := "a", grad := 0 },
         { data := 2, children := (none, none), op := none, label := "b", grad := 0 },
         { data := 1 + 2, children := (some 0, some 1), op := some Op.ADD, label := "",
           grad := 0 },
         { data := 1 + 2 + (1 + 2), children := (some 2, some 2), op := some Op.ADD,
           label := "", grad := 1 }] [3, 2, 0, 1]
        = [{ data := 1, children := (none, none), op := none, label := "a",
             grad := 0 + (0 + 1 + 1) },
           { data := 2, children := (none, none), op := none, label := "b",
             grad := 0 + (0 + 1 + 1) },
           { data := 1 + 2, children := (some 0, some 1), op := some Op.ADD, label := "",
             grad := 0 + 1 + 1 },
           { data := 1 + 2 + (1 + 2), children := (some 2, some 2), op := some Op.ADD,
             label := "", grad := 1 }] := rfl
    rw [specBackwardTraceOrder, ht, htr, h1, h2]
    show (0 : ℚ) + (0 + 1 + 1) = 2
    norm_num

/-- Claim C5 counterexample: the very first edge of the traced example
graph is (1, 0): its destination index 0 is strictly earlier than its
source index 1, so the destination is not a later-or-equal index. -/
theorem c5_counterexample :
    (1, 0) ∈ (Scalar.trace traceExample.1 traceExample.2).2 ∧
    ¬ (∀ e ∈ (Scalar.trace traceExample.1 traceExample.2).2, e.1 ≤ e.2) := by
  decide

/-- Claim C6 counterexample: for `d = a + a` the reachability collection
returns [d, a, a]; the leaf `a` appears twice, not exactly once. -/
theorem c6_counterexample :
    Scalar.traverse (selfSumExample 1).1 (selfSumExample 1).2 = [1, 0, 0] ∧
    (Scalar.traverse (selfSumExample 1).1 (selfSumExample 1).2).count 0 ≠ 1 := by
  decide

/-- Claim C2: for a leaf `a` holding `x`, the node `d = a + a` has data
`2x`, and after `d.backward()` the gradient of `a` (heap index 0) is 2. -/
theorem c2_self_sum (x : ℚ) :
    (selfSumExample x).1.dataAt (selfSumExample x).2 = 2 * x ∧
    (Scalar.backward (selfSumExample x).1 (selfSumExample x).2).gradAt 0 = 2 := by
  constructor
  · show x + x = 2 * x
    ring
  · have ht : Scalar.traverse (selfSumExample x).1 (selfSumExample x).2 = [1, 0, 0] := rfl
    have h1 : (zeroGradList (selfSumExample x).1 [1, 0, 0]).setGrad (selfSumExample x).2 1
        = [{ data := x, children := (none, none), op := none, label := "a", grad := 0 },
           { data := x + x, children := (some 0, some 0), op := some Op.ADD, label := "",
             grad := 1 }] := rfl
    have h2 : propagateList
        [{ data := x, children := (none, none), op := none, label := "a", grad := 0 },
         { data := x + x, children := (some 0, some 0), op := some Op.ADD, label := "",
           grad := 1 }] [1, 0, 0]
        = [{ data := x, children := (none, none), op := none, label := "a",
             grad := 0 + 1 + 1 },
           { data := x + x, children := (some 0, some 0), op := some Op.ADD, label := "",
             grad := 1 }] := rfl
    rw [Scalar.backward, ht, h1, h2]
    show (0 : ℚ) + 1 + 1 = 2
    norm_num

/-- Claim C10: the public equality of two scalar handles holds exactly
when their nodes' `data` fields are equal; it never inspects `grad`
(changing any node's gradient leaves every comparison unchanged), so two
distinct leaves holding equal data compare equal. -/
theorem c10_data_equality :
    (∀ (h : Heap) (i j : Nat), Scalar.eq h i j = true ↔ h.dataAt i = h.dataAt j) ∧
    (∀ (h : Heap) (i j k : Nat) (g : ℚ),
      Scalar.eq (h.setGrad k g) i j = Scalar.eq h i j) ∧
    (∀ (h : Heap) (i j : Nat), i ≠ j → h.dataAt i = h.dataAt j →
      Scalar.eq h i j = true) := by
  have hdata : ∀ (h : Heap) (k : Nat) (g : ℚ) (i : Nat),
      (h.setGrad k g).dataAt i = h.dataAt i := by
    intro h k g i
    unfold Heap.setGrad
    cases hk : h.get? k with
    | none => rfl
    | some v =>
      unfold Heap.dataAt
      rcases eq_or_ne k i with rfl | hne
      · obtain ⟨hlt, -⟩ := List.get?_eq_some.mp hk
        rw [List.get?_set_eq_of_lt _ hlt, hk]
        rfl
      · rw [List.get?_set_ne _ _ hne]
  refine ⟨?_, ?_, ?_⟩
  · intro h i j
    simp [Scalar.eq]
  · intro h i j k g
    simp [Scalar.eq, hdata]
  · intro h i j _ hd
    simp [Scalar.eq, hd]

theorem tsizeF_pos (h : Heap) (f : Nat) (i : Nat) : 1 ≤ tsizeF h f i := by
  cases f with
  | zero => simp [tsizeF]
  | succ f => simp [tsizeF]

theorem childIds_of_le (h : Heap) (i : Nat) (hi : h.length ≤ i) : h.childIds i = [] := by
  unfold Heap.childIds Heap.childrenAt
  rw [List.get?_eq_none.mpr hi]
  rfl

theorem tsizeF_stab (h : Heap) (hWF : h.WF) :
    ∀ i f1 f2, i + 1 ≤ f1 → i + 1 ≤ f2 → tsizeF h f1 i = tsizeF h f2 i := by
  intro i
  induction i using Nat.strong_induction_on with
  | _ i ih =>
    intro f1 f2 hf1 hf2
    obtain ⟨g1, rfl⟩ : ∃ g, f1 = g + 1 := ⟨f1 - 1, by omega⟩
    obtain ⟨g2, rfl⟩ : ∃ g, f2 = g + 1 := ⟨f2 - 1, by omega⟩
    simp only [tsizeF]
    by_cases hi : i < h.length
    · have he : (h.childIds i).map (tsizeF h g1) = (h.childIds i).map (tsizeF h g2) := by
        apply List.map_congr_left
        intro j hj
        have hji : j < i := hWF i hi j hj
        calc tsizeF h g1 j = tsizeF h (j + 1) j := ih j hji g1 (j + 1) (by omega) (by omega)
          _ = tsizeF h g2 j := (ih j hji g2 (j + 1) (by omega) (by omega)).symm
      rw [he]
    · rw [childIds_of_le h i (le_of_not_lt hi)]
      simp

theorem tsize_eq (h : Heap) (hWF : h.WF) (i : Nat) :
    h.tsize i = 1 + ((h.childIds i).map h.tsize).sum := by
  show tsizeF h (i + 1) i = 1 + ((h.childIds i).map h.tsize).sum
  simp only [tsizeF]
  congr 1
  apply congrArg List.sum
  by_cases hi : i < h.length
  · apply List.map_congr_left
    intro j hj
    have hji : j < i := hWF i hi j hj
    exact tsizeF_stab h hWF j i (j + 1) (by omega) (by omega)
  · rw [childIds_of_le h i (le_of_not_lt hi)]
    simp

theorem traverseLoop_extends (h : Heap) :
    ∀ fuel nodes p L, traverseLoop h fuel nodes p = some L → ∃ t, L = nodes ++ t := by
  intro fuel
  induction fuel with
  | zero =>
    intro nodes p L hL
    unfold traverseLoop at hL
    split at hL
    · simp at hL
    · exact ⟨[], by simp [← Option.some.inj hL]⟩
  | succ f ih =>
    intro nodes p L hL
    unfold traverseLoop at hL
    split at hL
    · obtain ⟨t, ht⟩ := ih _ _ _ hL
      exact ⟨_, by rw [ht, List.append_assoc]⟩
    · exact ⟨[], by simp [← Option.some.inj hL]⟩

theorem traverseLoop_master (h : Heap) (hWF : h.WF) :
    ∀ fuel nodes p,
      ((nodes.drop p).map h.tsize).sum ≤ fuel →
      (∀ k, k < p → ∀ j ∈ h.childIds (nodes.getD k 0), j ∈ nodes) →
      ∃ L, traverseLoop h fuel nodes p = some L ∧ (∃ t, L = nodes ++ t) ∧
        (∀ k, k < L.length → ∀ j ∈ h.childIds (L.getD k 0), j ∈ L) := by
  intro fuel
  induction fuel with
  | zero =>
    intro nodes p hM hInv
    have hp : ¬ p < nodes.length := by
      intro hp
      rw [List.drop_eq_getElem_cons hp] at hM
      simp only [List.map_cons, List.sum_cons] at hM
      have h1 := tsizeF_pos h (nodes[p] + 1) nodes[p]
      unfold Heap.tsize at hM
      omega
    refine ⟨nodes, ?_, ⟨[], by simp⟩, ?_⟩
    · unfold traverseLoop
      rw [if_neg hp]
    · intro k hk
      exact hInv k (by omega)
  | succ f ih =>
    intro nodes p hM hInv
    by_cases hp : p < nodes.length
    · have hgd : nodes.getD p 0 = nodes[p] := by
        simp [List.getD_eq_getElem?_getD, List.getElem?_eq_getElem hp]
      have hrec : h.tsize nodes[p] = 1 + ((h.childIds nodes[p]).map h.tsize).sum :=
        tsize_eq h hWF _
      have hM1 : ((nodes.drop p).map h.tsize).sum
          = h.tsize nodes[p] + ((nodes.drop (p + 1)).map h.tsize).sum := by
        rw [List.drop_eq_getElem_cons hp, List.map_cons, List.sum_cons]
      have hM' : (((nodes ++ h.childIds (nodes.getD p 0)).drop (p + 1)).map h.tsize).sum
          ≤ f := by
        have e0 : (((nodes ++ h.childIds (nodes.getD p 0)).drop (p + 1)).map h.tsize).sum
            = ((nodes.drop (p + 1)).map h.tsize).sum
              + ((h.childIds nodes[p]).map h.tsize).sum := by
          rw [hgd, List.drop_append_of_le_length (by omega), List.map_append,
            List.sum_append]
        rw [hM1, hrec] at hM
        omega
      have hInv' : ∀ k, k < p + 1 →
          ∀ j ∈ h.childIds ((nodes ++ h.childIds (nodes.getD p 0)).getD k 0),
            j ∈ nodes ++ h.childIds (nodes.getD p 0) := by
        intro k hk j hj
        have hkn : k < nodes.length := by omega
        rw [List.getD_append _ _ _ _ hkn] at hj
        rcases Nat.lt_or_ge k p with hkp | hkp
        · exact List.mem_append_left _ (hInv k hkp j hj)
        · have hkp2 : k = p := by omega
          subst hkp2
          exact List.mem_append_right _ hj
      obtain ⟨L, hL, hext, hclo⟩ := ih (nodes ++ h.childIds (nodes.getD p 0)) (p + 1) hM' hInv'
      refine ⟨L, ?_, ?_, hclo⟩
      · unfold traverseLoop
        rw [if_pos hp]
        exact hL
      · obtain ⟨t, ht⟩ := hext
        exact ⟨h.childIds (nodes.getD p 0) ++ t, by rw [ht, List.append_assoc]⟩
    · refine ⟨nodes, ?_, ⟨[], by simp⟩, ?_⟩
      · unfold traverseLoop
        rw [if_neg hp]
      · intro k hk
        exact hInv k (by omega)

theorem traverse_complete (h : Heap) (hWF : h.WF) (root : Nat) :
    traverseLoop h (h.tsize root) [root] 0 = some (Scalar.traverse h root) ∧
    (∃ t, Scalar.traverse h root = root :: t) ∧
    (∀ k, k < (Scalar.traverse h root).length →
      ∀ j ∈ h.childIds ((Scalar.traverse h root).getD k 0), j ∈ Scalar.traverse h root) := by
  obtain ⟨L, hL, ⟨t, ht⟩, hclo⟩ :=
    traverseLoop_master h hWF (h.tsize root) [root] 0 (by simp)
      (by intro k hk; exact absurd hk (Nat.not_lt_zero k))
  have hT : Scalar.traverse h root = L := by
    unfold Scalar.traverse
    rw [hL]
    rfl
  refine ⟨?_, ?_, ?_⟩
  · rw [hT]
    exact hL
  · exact ⟨t, by rw [hT, ht]; rfl⟩
  · rw [hT]
    exact hclo

theorem measure_split (h : Heap) {nodes : List Nat} {p : Nat} (hp : p < nodes.length) :
    ((nodes.drop p).map h.tsize).sum
      = h.tsize (nodes.getD p 0) + ((nodes.drop (p + 1)).map h.tsize).sum := by
  have hgd : nodes.getD p 0 = nodes[p] := by
    simp [List.getD_eq_getElem?_getD, List.getElem?_eq_getElem hp]
  rw [hgd, List.drop_eq_getElem_cons hp, List.map_cons, List.sum_cons]

theorem measure_drop (h : Heap) {nodes : List Nat} {p : Nat} (hp : p < nodes.length)
    (pushed : List Nat) :
    (((nodes ++ pushed).drop (p + 1)).map h.tsize).sum
      = ((nodes.drop (p + 1)).map h.tsize).sum + (pushed.map h.tsize).sum := by
  rw [List.drop_append_of_le_length (by omega), List.map_append, List.sum_append]

theorem traceVisit_cases (n : List Nat) (e : List (Nat × Nat)) (p c : Nat) :
    (c ∈ n ∧ ∃ i, traceVisit n e p c = (n, e ++ [(i, p)])) ∨
    (c ∉ n ∧ traceVisit n e p c = (n ++ [c], e ++ [(n.length, p)])) := by
  unfold traceVisit
  cases hf : n.findIdx? (fun s => s == c) with
  | some i =>
    left
    refine ⟨?_, i, rfl⟩
    by_contra hc
    have hnone : n.findIdx? (fun s => s == c) = none := by
      rw [List.findIdx?_eq_none_iff]
      intro x hx
      simp only [beq_eq_false_iff_ne, ne_eq]
      intro hxc
      exact hc (hxc ▸ hx)
    rw [hnone] at hf
    exact Option.noConfusion hf
  | none =>
    right
    constructor
    · intro hc
      have := List.findIdx?_eq_none_iff.mp hf c hc
      simp at this
    · show (n ++ [c], e ++ [((n ++ [c]).length - 1, p)]) = (n ++ [c], e ++ [(n.length, p)])
      simp

theorem traceLoop_step (h : Heap) (fuel : Nat) (nodes : List Nat)
    (edges : List (Nat × Nat)) (p : Nat) (hp : p < nodes.length) :
    ∃ (pushed : List Nat) (newes : List (Nat × Nat)),
      traceLoop h (fuel + 1) nodes edges p
        = traceLoop h fuel (nodes ++ pushed) (edges ++ newes) (p + 1) ∧
      (pushed.map h.tsize).sum ≤ ((h.childIds (nodes.getD p 0)).map h.tsize).sum ∧
      (∀ e ∈ newes, e.2 = p) := by
  rcases hch : h.childrenAt (nodes.getD p 0) with ⟨oc1, oc2⟩
  have hcid : h.childIds (nodes.getD p 0) = childList (oc1, oc2) := by
    unfold Heap.childIds
    rw [hch]
  match oc1, oc2 with
  | some c1, some c2 =>
    by_cases hcc : c1 = c2
    · subst hcc
      cases hf1 : nodes.findIdx? (fun s => s == c1) with
      | some i =>
        refine ⟨[], [(i, p), (i, p)], ?_, by simp, by simp⟩
        conv_lhs => unfold traceLoop
        rw [if_pos hp]
        simp only [hch, hf1, if_true]
        rw [List.append_nil]
      | none =>
        refine ⟨[c1], [(nodes.length, p), (nodes.length, p)], ?_, ?_, by simp⟩
        · conv_lhs => unfold traceLoop
          rw [if_pos hp]
          simp only [hch, hf1, if_true]
          simp
        · rw [hcid]
          simp only [childList, List.map_cons, List.map_nil, List.sum_cons, List.sum_nil]
          omega
    · rcases traceVisit_cases nodes edges p c1 with ⟨hm1, i1, hv1⟩ | ⟨hm1, hv1⟩
      · rcases traceVisit_cases nodes (edges ++ [(i1, p)]) p c2 with
          ⟨hm2, i2, hv2⟩ | ⟨hm2, hv2⟩
        · refine ⟨[], [(i1, p), (i2, p)], ?_, by simp, by simp⟩
          conv_lhs => unfold traceLoop
          rw [if_pos hp]
          simp only [hch]
          rw [if_neg hcc]
          simp only [hv1, hv2]
          rw [List.append_nil, List.append_assoc]
          rfl
        · refine ⟨[c2], [(i1, p), (nodes.length, p)], ?_, ?_, by simp⟩
          · conv_lhs => unfold traceLoop
            rw [if_pos hp]
            simp only [hch]
            rw [if_neg hcc]
            simp only [hv1, hv2]
            rw [List.append_assoc]
            rfl
          · rw [hcid]
            simp only [childList, List.map_cons, List.map_nil, List.sum_cons, List.sum_nil]
            omega
      · rcases traceVisit_cases (nodes ++ [c1]) (edges ++ [(nodes.length, p)]) p c2 with
          ⟨hm2, i2, hv2⟩ | ⟨hm2, hv2⟩
        · refine ⟨[c1], [(nodes.length, p), (i2, p)], ?_, ?_, by simp⟩
          · conv_lhs => unfold traceLoop
            rw [if_pos hp]
            simp only [hch]
            rw [if_neg hcc]
            simp only [hv1, hv2]
            rw [List.append_assoc]
            rfl
          · rw [hcid]
            simp only [childList, List.map_cons, List.map_nil, List.sum_cons, List.sum_nil]
            omega
        · refine ⟨[c1, c2], [(nodes.length, p), ((nodes ++ [c1]).length, p)], ?_, ?_, by simp⟩
          · conv_lhs => unfold traceLoop
            rw [if_pos hp]
            simp only [hch]
            rw [if_neg hcc]
            simp only [hv1, hv2]
            rw [List.append_assoc, List.append_assoc]
            rfl
          · rw [hcid]
            simp only [childList, List.map_cons, List.map_nil, List.sum_cons, List.sum_nil]
            omega
  | some c, none =>
    rcases traceVisit_cases nodes edges p c with ⟨hm, i, hv⟩ | ⟨hm, hv⟩
    · refine ⟨[], [(i, p)], ?_, by simp, by simp⟩
      conv_lhs => unfold traceLoop
      rw [if_pos hp]
      simp only [hch, hv]
      rw [List.append_nil]
    · refine ⟨[c], [(nodes.length, p)], ?_, ?_, by simp⟩
      · conv_lhs => unfold traceLoop
        rw [if_pos hp]
        simp only [hch, hv]
      · rw [hcid]
        simp only [childList, List.map_cons, List.map_nil, List.sum_cons, List.sum_nil]
        omega
  | none, some c =>
    rcases traceVisit_cases nodes edges p c with ⟨hm, i, hv⟩ | ⟨hm, hv⟩
    · refine ⟨[], [(i, p)], ?_, by simp, by simp⟩
      conv_lhs => unfold traceLoop
      rw [if_pos hp]
      simp only [hch, hv]
      rw [List.append_nil]
    · refine ⟨[c], [(nodes.length, p)], ?_, ?_, by simp⟩
      · conv_lhs => unfold traceLoop
        rw [if_pos hp]
        simp only [hch, hv]
      · rw [hcid]
        simp only [childList, List.map_cons, List.map_nil, List.sum_cons, List.sum_nil]
        omega
  | none, none =>
    refine ⟨[], [], ?_, by simp, by simp⟩
    conv_lhs => unfold traceLoop
    rw [if_pos hp]
    simp only [hch]
    rw [List.append_nil, List.append_nil]

theorem traceLoop_complete (h : Heap) (hWF : h.WF) :
    ∀ fuel nodes edges p,
      ((nodes.drop p).map h.tsize).sum ≤ fuel →
      ∃ R, traceLoop h fuel nodes edges p = some R := by
  intro fuel
  induction fuel with
  | zero =>
    intro nodes edges p hM
    have hp : ¬ p < nodes.length := by
      intro hp
      rw [measure_split h hp] at hM
      have h1 := tsizeF_pos h (nodes.getD p 0 + 1) (nodes.getD p 0)
      unfold Heap.tsize at hM
      omega
    exact ⟨(nodes, edges), by unfold traceLoop; rw [if_neg hp]⟩
  | succ f ih =>
    intro nodes edges p hM
    by_cases hp : p < nodes.length
    · obtain ⟨pushed, newes, heq, hbound, -⟩ := traceLoop_step h f nodes edges p hp
      have hM' : (((nodes ++ pushed).drop (p + 1)).map h.tsize).sum ≤ f := by
        rw [measure_drop h hp]
        rw [measure_split h hp, tsize_eq h hWF] at hM
        omega
      obtain ⟨R, hR⟩ := ih (nodes ++ pushed) (edges ++ newes) (p + 1) hM'
      exact ⟨R, by rw [heq]; exact hR⟩
    · exact ⟨(nodes, edges), by unfold traceLoop; rw [if_neg hp]⟩

theorem traceLoop_sorted (h : Heap) :
    ∀ fuel nodes edges p N E,
      (∀ e ∈ edges, e.2 < p) →
      edges.Pairwise (fun a b => a.2 ≤ b.2) →
      traceLoop h fuel nodes edges p = some (N, E) →
      E.Pairwise (fun a b => a.2 ≤ b.2) := by
  intro fuel
  induction fuel with
  | zero =>
    intro nodes edges p N E hlt hpw hL
    unfold traceLoop at hL
    split at hL
    · simp at hL
    · have h2 : edges = E := congrArg Prod.snd (Option.some.inj hL)
      exact h2 ▸ hpw
  | succ f ih =>
    intro nodes edges p N E hlt hpw hL
    by_cases hp : p < nodes.length
    · obtain ⟨pushed, newes, heq, -, hnew⟩ := traceLoop_step h f nodes edges p hp
      rw [heq] at hL
      refine ih (nodes ++ pushed) (edges ++ newes) (p + 1) N E ?_ ?_ hL
      · intro e he
        rcases List.mem_append.mp he with h1 | h1
        · have := hlt e h1
          omega
        · have := hnew e h1
          omega
      · rw [List.pairwise_append]
        refine ⟨hpw, ?_, ?_⟩
        · apply List.pairwise_of_forall_mem_list
          intro a ha b hb
          rw [hnew a ha, hnew b hb]
        · intro a ha b hb
          have h1 := hlt a ha
          have h2 := hnew b hb
          omega
    · unfold traceLoop at hL
      rw [if_neg hp] at hL
      have h2 : edges = E := congrArg Prod.snd (Option.some.inj hL)
      exact h2 ▸ hpw

/-- Claim C9: for every well-formed (append-only, acyclic) heap, the two
worklist loops run to completion within the `tsize` fuel bound: both
return `some`, with exactly the published `traverse` and `trace` results;
graph construction and `backward` are compositions of these loops with
total functions, so every operation returns to its caller. -/
theorem c9_termination (h : Heap) (root : Nat) (hWF : h.WF) :
    traverseLoop h (h.tsize root) [root] 0 = some (Scalar.traverse h root) ∧
    traceLoop h (h.tsize root) [root] [] 0 = some (Scalar.trace h root) := by
  refine ⟨(traverse_complete h hWF root).1, ?_⟩
  obtain ⟨R, hR⟩ := traceLoop_complete h hWF (h.tsize root) [root] [] 0 (by simp)
  rw [hR]
  unfold Scalar.trace
  rw [hR]
  rfl

/-- Witness for C9 at the concrete trace-example graph. -/
theorem c9_witness :
    traceExample.1.WF ∧
    traverseLoop traceExample.1 (traceExample.1.tsize traceExample.2) [traceExample.2] 0
      = some (Scalar.traverse traceExample.1 traceExample.2) ∧
    traceLoop traceExample.1 (traceExample.1.tsize traceExample.2) [traceExample.2] [] 0
      = some (Scalar.trace traceExample.1 traceExample.2) := by
  have hWF : traceExample.1.WF := by decide
  exact ⟨hWF, c9_termination traceExample.1 traceExample.2 hWF⟩

/-- Claim C5 (amended): in each traced edge `(source, destination)` the
destination is the position of the node being scanned when the edge is
recorded, so destinations are non-decreasing along the edge list; the
destination is not in general later-or-equal than the edge's own source
index (see the counterexample). -/
theorem c5_amended_dest_monotone (h : Heap) (root : Nat) :
    (Scalar.trace h root).2.Pairwise (fun a b => a.2 ≤ b.2) := by
  unfold Scalar.trace
  cases hR : traceLoop h (h.tsize root) [root] [] 0 with
  | none => simp
  | some R =>
    rcases R with ⟨N, E⟩
    have := traceLoop_sorted h (h.tsize root) [root] [] 0 N E
      (by intro e he; simp at he) (by simp) hR
    simpa using this

/-- Claim C6 (amended): the reachability collection returns a list that
contains every node reachable from the root; a node reachable along
several discovery paths is re-enqueued once per path, so it can appear
more than once (the counterexample shows a leaf appearing twice). -/
theorem c6_amended_reachable_complete (h : Heap) (root : Nat) (hWF : h.WF) :
    ∀ j, Reachable h root j → j ∈ Scalar.traverse h root := by
  obtain ⟨-, ⟨t, ht⟩, hclo⟩ := traverse_complete h hWF root
  intro j hj
  induction hj with
  | refl =>
    rw [ht]
    exact List.mem_cons_self _ _
  | step hr hk ih =>
    rename_i j1 k1
    obtain ⟨n, hn⟩ := List.get?_of_mem ih
    have hlt : n < (Scalar.traverse h root).length := by
      by_contra hc
      rw [List.get?_eq_none.mpr (by omega)] at hn
      exact Option.noConfusion hn
    have hgd : (Scalar.traverse h root).getD n 0 = j1 := by
      rw [List.getD_eq_getElem?_getD, ← List.get?_eq_getElem?, hn]
      rfl
    exact hclo n hlt k1 (by rw [hgd]; exact hk)

theorem loop_eq (h : Heap) :
    ∀ fuel nodes edges p L,
      traverseLoop h fuel nodes p = some L → L.Nodup →
      ∃ E, traceLoop h fuel nodes edges p = some (L, E) := by
  intro fuel
  induction fuel with
  | zero =>
    intro nodes edges p L hL hnd
    unfold traverseLoop at hL
    split at hL
    · simp at hL
    case isFalse hp =>
      have h1 : nodes = L := Option.some.inj hL
      exact ⟨edges, by unfold traceLoop; rw [if_neg hp, h1]⟩
  | succ f ih =>
    intro nodes edges p L hL hnd
    unfold traverseLoop at hL
    split at hL
    case isTrue hp =>
      rcases hch : h.childrenAt (nodes.getD p 0) with ⟨oc1, oc2⟩
      have hcid : h.childIds (nodes.getD p 0) = childList (oc1, oc2) := by
        unfold Heap.childIds
        rw [hch]
      rw [hcid] at hL
      match oc1, oc2 with
      | some c1, some c2 =>
        simp only [childList] at hL
        obtain ⟨t, ht⟩ := traverseLoop_extends h f _ _ _ hL
        have hsub : (nodes ++ [c1, c2]).Sublist L := by
          rw [ht]
          exact List.sublist_append_left _ _
        have hnd2 := List.Nodup.sublist hsub hnd
        rw [List.nodup_append] at hnd2
        have hne : c1 ≠ c2 := by
          have h3 := hnd2.2.1
          simp [List.nodup_cons] at h3
          exact h3
        have hnm1 : c1 ∉ nodes := fun hc => hnd2.2.2 hc (by simp)
        have hnm2 : c2 ∉ nodes := fun hc => hnd2.2.2 hc (by simp)
        rcases traceVisit_cases nodes edges p c1 with ⟨hm, -⟩ | ⟨-, hv1⟩
        · exact absurd hm hnm1
        rcases traceVisit_cases (nodes ++ [c1]) (edges ++ [(nodes.length, p)]) p c2 with
          ⟨hm, -⟩ | ⟨-, hv2⟩
        · rcases List.mem_append.mp hm with hm1 | hm1
          · exact absurd hm1 hnm2
          · exact absurd (List.mem_singleton.mp hm1).symm hne
        have hconv : nodes ++ [c1, c2] = (nodes ++ [c1]) ++ [c2] := by
          rw [List.append_assoc]
          rfl
        rw [hconv] at hL
        obtain ⟨E, hE⟩ := ih ((nodes ++ [c1]) ++ [c2])
          ((edges ++ [(nodes.length, p)]) ++ [((nodes ++ [c1]).length, p)]) (p + 1) L hL hnd
        refine ⟨E, ?_⟩
        conv_lhs => unfold traceLoop
        rw [if_pos hp]
        simp only [hch]
        rw [if_neg hne]
        simp only [hv1, hv2]
        exact hE
      | some c, none =>
        simp only [childList] at hL
        obtain ⟨t, ht⟩ := traverseLoop_extends h f _ _ _ hL
        have hsub : (nodes ++ [c]).Sublist L := by
          rw [ht]
          exact List.sublist_append_left _ _
        have hnd2 := List.Nodup.sublist hsub hnd
        rw [List.nodup_append] at hnd2
        have hnm : c ∉ nodes := fun hc => hnd2.2.2 hc (by simp)
        rcases traceVisit_cases nodes edges p c with ⟨hm, -⟩ | ⟨-, hv⟩
        · exact absurd hm hnm
        obtain ⟨E, hE⟩ := ih (nodes ++ [c]) (edges ++ [(nodes.length, p)]) (p + 1) L hL hnd
        refine ⟨E, ?_⟩
        conv_lhs => unfold traceLoop
        rw [if_pos hp]
        simp only [hch]
        simp only [hv]
        exact hE
      | none, some c =>
        simp only [childList] at hL
        obtain ⟨t, ht⟩ := traverseLoop_extends h f _ _ _ hL
        have hsub : (nodes ++ [c]).Sublist L := by
          rw [ht]
          exact List.sublist_append_left _ _
        have hnd2 := List.Nodup.sublist hsub hnd
        rw [List.nodup_append] at hnd2
        have hnm : c ∉ nodes := fun hc => hnd2.2.2 hc (by simp)
        rcases traceVisit_cases nodes edges p c with ⟨hm, -⟩ | ⟨-, hv⟩
        · exact absurd hm hnm
        obtain ⟨E, hE⟩ := ih (nodes ++ [c]) (edges ++ [(nodes.length, p)]) (p + 1) L hL hnd
        refine ⟨E, ?_⟩
        conv_lhs => unfold traceLoop
        rw [if_pos hp]
        simp only [hch]
        simp only [hv]
        exact hE
      | none, none =>
        simp only [childList] at hL
        rw [List.append_nil] at hL
        obtain ⟨E, hE⟩ := ih nodes edges (p + 1) L hL hnd
        refine ⟨E, ?_⟩
        conv_lhs => unfold traceLoop
        rw [if_pos hp]
        simp only [hch]
        exact hE
    case isFalse hp =>
      have h1 : nodes = L := Option.some.inj hL
      exact ⟨edges, by unfold traceLoop; rw [if_neg hp, h1]⟩

/-- Claim C1 (amended): the propagation phase of `backward` applies the
local gradient rules once per position of the non-deduplicated
reachability list (`traverse`) — root first, then breadth-outward — so a
node rediscovered along several paths has its rule applied once per
path.  Whenever that list is duplicate-free it coincides with the
deduplicated trace's node list, and `backward` then equals the spec's
trace-ordered propagation; the counterexample shows they differ as soon
as an interior node is shared. -/
theorem c1_amended_propagation_order (h : Heap) (root : Nat) (hWF : h.WF)
    (hnd : (Scalar.traverse h root).Nodup) :
    Scalar.traverse h root = (Scalar.trace h root).1 ∧
    Scalar.backward h root = specBackwardTraceOrder h root := by
  have h1 := (traverse_complete h hWF root).1
  obtain ⟨E, hE⟩ := loop_eq h (h.tsize root) [root] [] 0 (Scalar.traverse h root) h1 hnd
  have h2 : Scalar.trace h root = (Scalar.traverse h root, E) := by
    unfold Scalar.trace
    rw [hE]
    rfl
  constructor
  · rw [h2]
  · unfold Scalar.backward specBackwardTraceOrder
    rw [h2]

/-- Witness for the amended C1 at the duplicate-free trace-example graph:
there `backward` and the spec's trace-ordered propagation coincide. -/
theorem c1_witness :
    traceExample.1.WF ∧ (Scalar.traverse traceExample.1 traceExample.2).Nodup ∧
    Scalar.traverse traceExample.1 traceExample.2
      = (Scalar.trace traceExample.1 traceExample.2).1 ∧
    Scalar.backward traceExample.1 traceExample.2
      = specBackwardTraceOrder traceExample.1 traceExample.2 := by
  have hWF : traceExample.1.WF := by decide
  have hnd : (Scalar.traverse traceExample.1 traceExample.2).Nodup := by decide
  exact ⟨hWF, hnd, c1_amended_propagation_order traceExample.1 traceExample.2 hWF hnd⟩

theorem sameShape_symm {h h' : Heap} (hs : h.sameShape h') : h'.sameShape h :=
  fun i => (hs i).symm

theorem sameShape_trans {a b c : Heap} (h1 : a.sameShape b) (h2 : b.sameShape c) :
    a.sameShape c :=
  fun i => (h1 i).trans (h2 i)

theorem sameShape_length {h h' : Heap} (hs : h.sameShape h') : h.length = h'.length := by
  by_contra hc
  rcases Nat.lt_or_ge h.length h'.length with hlt | hge
  · have h1 := hs h.length
    rw [List.get?_eq_none.mpr (Nat.le_refl _)] at h1
    cases hg : h'.get? h.length with
    | none =>
      rw [List.get?_eq_none] at hg
      omega
    | some v =>
      rw [hg] at h1
      simp at h1
  · have hlt : h'.length < h.length := by omega
    have h1 := hs h'.length
    rw [List.get?_eq_none.mpr (Nat.le_refl _)] at h1
    cases hg : h.get? h'.length with
    | none =>
      rw [List.get?_eq_none] at hg
      omega
    | some v =>
      rw [hg] at h1
      simp at h1

theorem sameShape_fields {h h' : Heap} (hs : h.sameShape h') (i : Nat) :
    h.childrenAt i = h'.childrenAt i ∧ h.dataAt i = h'.dataAt i ∧ h.opAt i = h'.opAt i := by
  have h1 := hs i
  unfold Heap.childrenAt Heap.dataAt Heap.opAt
  cases hg : h.get? i with
  | none =>
    cases hg2 : h'.get? i with
    | none => exact ⟨rfl, rfl, rfl⟩
    | some v =>
      rw [hg, hg2] at h1
      simp at h1
  | some v =>
    cases hg2 : h'.get? i with
    | none =>
      rw [hg, hg2] at h1
      simp at h1
    | some w =>
      rw [hg, hg2] at h1
      simp [Value.shape] at h1
      obtain ⟨hd, hc, ho, -⟩ := h1
      refine ⟨?_, by simp [hd], by simp [ho]⟩
      simp [Prod.ext_iff] at hc
      simp [Prod.ext_iff, hc]

theorem sameShape_childIds {h h' : Heap} (hs : h.sameShape h') (i : Nat) :
    h.childIds i = h'.childIds i := by
  unfold Heap.childIds
  rw [(sameShape_fields hs i).1]

theorem sameShape_tsizeF {h h' : Heap} (hs : h.sameShape h') :
    ∀ f i, tsizeF h f i = tsizeF h' f i := by
  intro f
  induction f with
  | zero => intro i; rfl
  | succ f ih =>
    intro i
    simp only [tsizeF]
    rw [sameShape_childIds hs i]
    congr 1
    apply congrArg List.sum
    apply List.map_congr_left
    intro j hj
    exact ih j

theorem sameShape_traverseLoop {h h' : Heap} (hs : h.sameShape h') :
    ∀ f nodes p, traverseLoop h f nodes p = traverseLoop h' f nodes p := by
  intro f
  induction f with
  | zero => intro nodes p; rfl
  | succ f ih =>
    intro nodes p
    unfold traverseLoop
    by_cases hp : p < nodes.length
    · rw [if_pos hp, if_pos hp, sameShape_childIds hs, ih]
    · rw [if_neg hp, if_neg hp]

theorem sameShape_traverse {h h' : Heap} (hs : h.sameShape h') (root : Nat) :
    Scalar.traverse h root = Scalar.traverse h' root := by
  unfold Scalar.traverse Heap.tsize
  rw [sameShape_tsizeF hs, sameShape_traverseLoop hs]

theorem setGrad_length (h : Heap) (i : Nat) (g : ℚ) :
    (h.setGrad i g).length = h.length := by
  unfold Heap.setGrad
  cases hg : h.get? i with
  | none => rfl
  | some v => simp

theorem addGrad_length (h : Heap) (i : Nat) (g : ℚ) :
    (h.addGrad i g).length = h.length := by
  unfold Heap.addGrad
  cases hg : h.get? i with
  | none => rfl
  | some v => simp

theorem gradAt_setGrad (h : Heap) (c : Nat) (x : ℚ) (j : Nat) :
    (h.setGrad c x).gradAt j = if c = j ∧ c < h.length then x else h.gradAt j := by
  unfold Heap.setGrad Heap.gradAt
  cases hg : h.get? c with
  | none =>
    rw [List.get?_eq_none] at hg
    rw [if_neg (fun hc => absurd hc.2 (Nat.not_lt.mpr hg))]
  | some v =>
    obtain ⟨hlt, -⟩ := List.get?_eq_some.mp hg
    rcases eq_or_ne c j with rfl | hne
    · rw [if_pos ⟨rfl, hlt⟩, List.get?_set_eq_of_lt _ hlt]
      rfl
    · rw [if_neg (fun hc => hne hc.1), List.get?_set_ne _ _ hne]

theorem gradAt_addGrad (h : Heap) (c : Nat) (x : ℚ) (j : Nat) :
    (h.addGrad c x).gradAt j
      = if c = j ∧ c < h.length then h.gradAt j + x else h.gradAt j := by
  unfold Heap.addGrad Heap.gradAt
  cases hg : h.get? c with
  | none =>
    rw [List.get?_eq_none] at hg
    rw [if_neg (fun hc => absurd hc.2 (Nat.not_lt.mpr hg))]
  | some v =>
    obtain ⟨hlt, -⟩ := List.get?_eq_some.mp hg
    rcases eq_or_ne c j with rfl | hne
    · rw [if_pos ⟨rfl, hlt⟩, List.get?_set_eq_of_lt _ hlt, hg]
      rfl
    · rw [if_neg (fun hc => hne hc.1), List.get?_set_ne _ _ hne]

theorem setGrad_sameShape (h : Heap) (c : Nat) (x : ℚ) :
    (h.setGrad c x).sameShape h := by
  intro j
  unfold Heap.setGrad
  cases hg : h.get? c with
  | none => rfl
  | some v =>
    rcases eq_or_ne c j with rfl | hne
    · obtain ⟨hlt, -⟩ := List.get?_eq_some.mp hg
      rw [List.get?_set_eq_of_lt _ hlt, hg]
      rfl
    · rw [List.get?_set_ne _ _ hne]

theorem addGrad_sameShape (h : Heap) (c : Nat) (x : ℚ) :
    (h.addGrad c x).sameShape h := by
  intro j
  unfold Heap.addGrad
  cases hg : h.get? c with
  | none => rfl
  | some v =>
    rcases eq_or_ne c j with rfl | hne
    · obtain ⟨hlt, -⟩ := List.get?_eq_some.mp hg
      rw [List.get?_set_eq_of_lt _ hlt, hg]
      rfl
    · rw [List.get?_set_ne _ _ hne]

theorem zeroGradList_sameShape (h : Heap) (l : List Nat) :
    (zeroGradList h l).sameShape h := by
  induction l generalizing h with
  | nil => exact fun i => rfl
  | cons s l ih =>
    show (zeroGradList (h.setGrad s 0) l).sameShape h
    exact sameShape_trans (ih (h.setGrad s 0)) (setGrad_sameShape h s 0)

theorem zeroGradList_length (h : Heap) (l : List Nat) :
    (zeroGradList h l).length = h.length :=
  sameShape_length (zeroGradList_sameShape h l)

theorem gradAt_zeroGradList (h : Heap) (l : List Nat) (i : Nat) :
    (zeroGradList h l).gradAt i = if i ∈ l ∧ i < h.length then 0 else h.gradAt i := by
  induction l generalizing h with
  | nil =>
    rw [if_neg (fun hc => List.not_mem_nil i hc.1)]
    rfl
  | cons s l ih =>
    show (zeroGradList (h.setGrad s 0) l).gradAt i = _
    rw [ih, setGrad_length]
    by_cases hmem : i ∈ l ∧ i < h.length
    · rw [if_pos hmem, if_pos ⟨List.mem_cons_of_mem s hmem.1, hmem.2⟩]
    · rw [if_neg hmem, gradAt_setGrad]
      by_cases hsi : s = i ∧ s < h.length
      · rw [if_pos hsi, if_pos ⟨hsi.1 ▸ List.mem_cons_self s l, hsi.1 ▸ hsi.2⟩]
      · rw [if_neg hsi, if_neg ?_]
        intro hc
        rcases List.mem_cons.mp hc.1 with h1 | h1
        · exact hsi ⟨h1.symm, h1 ▸ hc.2⟩
        · exact hmem ⟨h1, hc.2⟩

theorem traverseLoop_bound (h : Heap) (hWF : h.WF) :
    ∀ fuel nodes p L, (∀ j ∈ nodes, j < h.length) →
      traverseLoop h fuel nodes p = some L → ∀ j ∈ L, j < h.length := by
  intro fuel
  induction fuel with
  | zero =>
    intro nodes p L hb hL
    unfold traverseLoop at hL
    split at hL
    · simp at hL
    · exact Option.some.inj hL ▸ hb
  | succ f ih =>
    intro nodes p L hb hL
    unfold traverseLoop at hL
    split at hL
    case isTrue hp =>
      refine ih _ _ _ ?_ hL
      intro j hj
      rcases List.mem_append.mp hj with h1 | h1
      · exact hb j h1
      · have hmem : nodes.getD p 0 ∈ nodes := by
          rw [List.getD_eq_getElem _ _ hp]
          exact List.getElem_mem _
        have hi := hb _ hmem
        exact Nat.lt_trans (hWF _ hi j h1) hi
    case isFalse hp =>
      exact Option.some.inj hL ▸ hb

theorem traverse_bound (h : Heap) (hWF : h.WF) (root : Nat) (hr : root < h.length) :
    ∀ j ∈ Scalar.traverse h root, j < h.length := by
  refine traverseLoop_bound h hWF (h.tsize root) [root] 0 (Scalar.traverse h root) ?_
    (traverse_complete h hWF root).1
  intro j hj
  rw [List.mem_singleton.mp hj]
  exact hr

theorem traverse_closed (h : Heap) (hWF : h.WF) (root : Nat) :
    ∀ i ∈ Scalar.traverse h root, ∀ j ∈ h.childIds i, j ∈ Scalar.traverse h root := by
  intro i hi j hj
  obtain ⟨n, hn⟩ := List.get?_of_mem hi
  have hlt : n < (Scalar.traverse h root).length := by
    by_contra hc
    rw [List.get?_eq_none.mpr (by omega)] at hn
    exact Option.noConfusion hn
  have hgd : (Scalar.traverse h root).getD n 0 = i := by
    rw [List.getD_eq_getElem?_getD, ← List.get?_eq_getElem?, hn]
    rfl
  exact (traverse_complete h hWF root).2.2 n hlt j (by rw [hgd]; exact hj)

theorem phase_gradAt (h : Heap) (L : List Nat) (root i : Nat) (hrl : root < h.length)
    (hiL : i ∈ L) (hil : i < h.length) :
    ((zeroGradList h L).setGrad root 1).gradAt i = if i = root then 1 else 0 := by
  rcases eq_or_ne i root with rfl | hne
  · rw [if_pos rfl, gradAt_setGrad,
      if_pos ⟨rfl, by rw [zeroGradList_length]; exact hrl⟩]
  · rw [if_neg hne, gradAt_setGrad, if_neg (fun hc => hne hc.1.symm),
      gradAt_zeroGradList, if_pos ⟨hiL, hil⟩]

theorem cal_grad_agree {h h' : Heap} {S : List Nat}
    (hs : h.sameShape h')
    (hg : ∀ i ∈ S, h.gradAt i = h'.gradAt i)
    (hclo : ∀ i ∈ S, ∀ j ∈ h.childIds i, j ∈ S)
    (s : Nat) (hsS : s ∈ S) :
    (Scalar.cal_grad h s).sameShape h ∧
    (Scalar.cal_grad h s).sameShape (Scalar.cal_grad h' s) ∧
    (∀ i ∈ S, (Scalar.cal_grad h s).gradAt i = (Scalar.cal_grad h' s).gradAt i) := by
  have hlen := sameShape_length hs
  have hop : h'.opAt s = h.opAt s := ((sameShape_fields hs s).2.2).symm
  have hch : h'.childrenAt s = h.childrenAt s := ((sameShape_fields hs s).1).symm
  have hgs : h.gradAt s = h'.gradAt s := hg s hsS
  unfold Scalar.cal_grad
  rw [hop, hch]
  rcases hchv : h.childrenAt s with ⟨oc1, oc2⟩
  have hcid : h.childIds s = childList (oc1, oc2) := by
    unfold Heap.childIds
    rw [hchv]
  cases hopv : h.opAt s with
  | none => exact ⟨fun i => rfl, hs, hg⟩
  | some op =>
    cases op with
    | ADD =>
      match oc1, oc2 with
      | some c1, some c2 =>
        have hc1 : c1 ∈ S := hclo s hsS c1 (by rw [hcid]; simp [childList])
        have hc2 : c2 ∈ S := hclo s hsS c2 (by rw [hcid]; simp [childList])
        refine ⟨?_, ?_, ?_⟩
        · exact sameShape_trans (addGrad_sameShape _ _ _) (addGrad_sameShape _ _ _)
        · refine sameShape_trans
            (sameShape_trans (addGrad_sameShape _ _ _) (addGrad_sameShape _ _ _))
            (sameShape_trans hs (sameShape_symm
              (sameShape_trans (addGrad_sameShape _ _ _) (addGrad_sameShape _ _ _))))
        · intro i hi
          show ((h.addGrad c1 (h.gradAt s)).addGrad c2 (h.gradAt s)).gradAt i
            = ((h'.addGrad c1 (h'.gradAt s)).addGrad c2 (h'.gradAt s)).gradAt i
          simp only [gradAt_addGrad, addGrad_length, ← hlen, ← hgs, ← hg i hi]
      | some c1, none => exact ⟨fun i => rfl, hs, hg⟩
      | none, some c2 => exact ⟨fun i => rfl, hs, hg⟩
      | none, none => exact ⟨fun i => rfl, hs, hg⟩
    | SUB =>
      match oc1, oc2 with
      | some c1, some c2 =>
        have hc1 : c1 ∈ S := hclo s hsS c1 (by rw [hcid]; simp [childList])
        have hc2 : c2 ∈ S := hclo s hsS c2 (by rw [hcid]; simp [childList])
        refine ⟨?_, ?_, ?_⟩
        · exact sameShape_trans (addGrad_sameShape _ _ _) (addGrad_sameShape _ _ _)
        · refine sameShape_trans
            (sameShape_trans (addGrad_sameShape _ _ _) (addGrad_sameShape _ _ _))
            (sameShape_trans hs (sameShape_symm
              (sameShape_trans (addGrad_sameShape _ _ _) (addGrad_sameShape _ _ _))))
        · intro i hi
          show ((h.addGrad c1 (h.gradAt s)).addGrad c2 (-h.gradAt s)).gradAt i
            = ((h'.addGrad c1 (h'.gradAt s)).addGrad c2 (-h'.gradAt s)).gradAt i
          simp only [gradAt_addGrad, addGrad_length, ← hlen, ← hgs, ← hg i hi]
      | some c1, none => exact ⟨fun i => rfl, hs, hg⟩
      | none, some c2 => exact ⟨fun i => rfl, hs, hg⟩
      | none, none => exact ⟨fun i => rfl, hs, hg⟩
    | MUL =>
      match oc1, oc2 with
      | some c1, some c2 =>
        have hc1 : c1 ∈ S := hclo s hsS c1 (by rw [hcid]; simp [childList])
        have hc2 : c2 ∈ S := hclo s hsS c2 (by rw [hcid]; simp [childList])
        have hd1 : h.dataAt c1 = h'.dataAt c1 := (sameShape_fields hs c1).2.1
        have hd2 : h.dataAt c2 = h'.dataAt c2 := (sameShape_fields hs c2).2.1
        refine ⟨?_, ?_, ?_⟩
        · exact sameShape_trans (addGrad_sameShape _ _ _) (addGrad_sameShape _ _ _)
        · refine sameShape_trans
            (sameShape_trans (addGrad_sameShape _ _ _) (addGrad_sameShape _ _ _))
            (sameShape_trans hs (sameShape_symm
              (sameShape_trans (addGrad_sameShape _ _ _) (addGrad_sameShape _ _ _))))
        · intro i hi
          show ((h.addGrad c2 (h.dataAt c1 * h.gradAt s)).addGrad c1
              (h.dataAt c2 * h.gradAt s)).gradAt i
            = ((h'.addGrad c2 (h'.dataAt c1 * h'.gradAt s)).addGrad c1
              (h'.dataAt c2 * h'.gradAt s)).gradAt i
          simp only [gradAt_addGrad, addGrad_length, ← hlen, ← hgs, ← hg i hi, ← hd1, ← hd2]
      | some c1, none => exact ⟨fun i => rfl, hs, hg⟩
      | none, some c2 => exact ⟨fun i => rfl, hs, hg⟩
      | none, none => exact ⟨fun i => rfl, hs, hg⟩
    | POWI n =>
      match oc1, oc2 with
      | some c, none =>
        have hc : c ∈ S := hclo s hsS c (by rw [hcid]; simp [childList])
        have hd : h.dataAt c = h'.dataAt c := (sameShape_fields hs c).2.1
        refine ⟨addGrad_sameShape _ _ _, ?_, ?_⟩
        · refine sameShape_trans (addGrad_sameShape _ _ _)
            (sameShape_trans hs (sameShape_symm (addGrad_sameShape _ _ _)))
        · intro i hi
          show (h.addGrad c ((n : ℚ) * h.dataAt c ^ (n - 1) * h.gradAt s)).gradAt i
            = (h'.addGrad c ((n : ℚ) * h'.dataAt c ^ (n - 1) * h'.gradAt s)).gradAt i
          simp only [gradAt_addGrad, addGrad_length, ← hlen, ← hgs, ← hg i hi, ← hd]
      | some c1, some c2 => exact ⟨fun i => rfl, hs, hg⟩
      | none, some c2 => exact ⟨fun i => rfl, hs, hg⟩
      | none, none => exact ⟨fun i => rfl, hs, hg⟩
    | TANH =>
      match oc1, oc2 with
      | some c, none =>
        have hc : c ∈ S := hclo s hsS c (by rw [hcid]; simp [childList])
        have hds : h.dataAt s = h'.dataAt s := (sameShape_fields hs s).2.1
        refine ⟨addGrad_sameShape _ _ _, ?_, ?_⟩
        · refine sameShape_trans (addGrad_sameShape _ _ _)
            (sameShape_trans hs (sameShape_symm (addGrad_sameShape _ _ _)))
        · intro i hi
          show (h.addGrad c ((1 - h.dataAt s ^ 2) * h.gradAt s)).gradAt i
            = (h'.addGrad c ((1 - h'.dataAt s ^ 2) * h'.gradAt s)).gradAt i
          simp only [gradAt_addGrad, addGrad_length, ← hlen, ← hgs, ← hg i hi, ← hds]
      | some c1, some c2 => exact ⟨fun i => rfl, hs, hg⟩
      | none, some c2 => exact ⟨fun i => rfl, hs, hg⟩
      | none, none => exact ⟨fun i => rfl, hs, hg⟩

theorem propagateList_agree (h0 : Heap) (S : List Nat)
    (hclo : ∀ i ∈ S, ∀ j ∈ h0.childIds i, j ∈ S) :
    ∀ (l : List Nat) (h h' : Heap), (∀ x ∈ l, x ∈ S) →
      h.sameShape h0 → h.sameShape h' →
      (∀ i ∈ S, h.gradAt i = h'.gradAt i) →
      (propagateList h l).sameShape h0 ∧
      (∀ i ∈ S, (propagateList h l).gradAt i = (propagateList h' l).gradAt i) := by
  intro l
  induction l with
  | nil =>
    intro h h' hl hsh0 hss hg
    exact ⟨hsh0, hg⟩
  | cons s l ih =>
    intro h h' hl hsh0 hss hg
    have hsS : s ∈ S := hl s (List.mem_cons_self s l)
    have hcloh : ∀ i ∈ S, ∀ j ∈ h.childIds i, j ∈ S := by
      intro i hi j hj
      rw [sameShape_childIds hsh0 i] at hj
      exact hclo i hi j hj
    obtain ⟨hself, hss2, hg2⟩ := cal_grad_agree hss hg hcloh s hsS
    show (propagateList (Scalar.cal_grad h s) l).sameShape h0 ∧ _
    exact ih (Scalar.cal_grad h s) (Scalar.cal_grad h' s)
      (fun x hx => hl x (List.mem_cons_of_mem s hx))
      (sameShape_trans hself hsh0) hss2 hg2

/-- Claim C3: `backward` first zeroes the gradient of every node
reachable from the root and then seeds the root's gradient with 1, so
the gradients it leaves on the reachable nodes depend only on the
graph's shape and `data` values: two heaps equal up to their `grad`
fields produce identical reachable gradients. -/
theorem c3_grad_reset_independence (h h' : Heap) (root : Nat)
    (hWF : h.WF) (hs : h.sameShape h') (hroot : root < h.length) :
    (∀ i ∈ Scalar.traverse h root,
      ((zeroGradList h (Scalar.traverse h root)).setGrad root 1).gradAt i
        = if i = root then 1 else 0) ∧
    (∀ i ∈ Scalar.traverse h root,
      (Scalar.backward h root).gradAt i = (Scalar.backward h' root).gradAt i) := by
  have hTeq : Scalar.traverse h root = Scalar.traverse h' root := sameShape_traverse hs root
  have hbnd := traverse_bound h hWF root hroot
  constructor
  · intro i hi
    exact phase_gradAt h _ root i hroot hi (hbnd i hi)
  · intro i hi
    have hclo := traverse_closed h hWF root
    have hph : ((zeroGradList h (Scalar.traverse h root)).setGrad root 1).sameShape h :=
      sameShape_trans (setGrad_sameShape _ root 1) (zeroGradList_sameShape h _)
    have hph' : ((zeroGradList h' (Scalar.traverse h root)).setGrad root 1).sameShape h' :=
      sameShape_trans (setGrad_sameShape _ root 1) (zeroGradList_sameShape h' _)
    have hphg : ∀ j ∈ Scalar.traverse h root,
        ((zeroGradList h (Scalar.traverse h root)).setGrad root 1).gradAt j
          = ((zeroGradList h' (Scalar.traverse h root)).setGrad root 1).gradAt j := by
      intro j hj
      rw [phase_gradAt h _ root j hroot hj (hbnd j hj),
        phase_gradAt h' _ root j (sameShape_length hs ▸ hroot) hj
          (sameShape_length hs ▸ hbnd j hj)]
    have hmain := propagateList_agree h (Scalar.traverse h root) hclo
      (Scalar.traverse h root)
      ((zeroGradList h (Scalar.traverse h root)).setGrad root 1)
      ((zeroGradList h' (Scalar.traverse h root)).setGrad root 1)
      (fun x hx => hx) hph
      (sameShape_trans hph (sameShape_trans hs (sameShape_symm hph')))
      hphg
    show (propagateList ((zeroGradList h (Scalar.traverse h root)).setGrad root 1)
        (Scalar.traverse h root)).gradAt i
      = (propagateList ((zeroGradList h' (Scalar.traverse h' root)).setGrad root 1)
        (Scalar.traverse h' root)).gradAt i
    rw [← hTeq]
    exact hmain.2 i hi

/-- Witness for C3: the trace-example heap and the same heap carrying
stale gradients from an earlier pass give the leaf `a` the same gradient
after `backward`. -/
theorem c3_witness :
    traceExample.1.WF ∧ Heap.sameShape traceExample.1 staleExample ∧
    traceExample.2 < traceExample.1.length ∧
    (0 : Nat) ∈ Scalar.traverse traceExample.1 traceExample.2 ∧
    (Scalar.backward traceExample.1 traceExample.2).gradAt 0
      = (Scalar.backward staleExample traceExample.2).gradAt 0 := by
  have hWF : traceExample.1.WF := by decide
  have hs : Heap.sameShape traceExample.1 staleExample :=
    sameShape_symm (sameShape_trans (setGrad_sameShape _ 4 7) (setGrad_sameShape _ 0 5))
  have hr : traceExample.2 < traceExample.1.length := by decide
  have hm : (0 : Nat) ∈ Scalar.traverse traceExample.1 traceExample.2 := by decide
  exact ⟨hWF, hs, hr, hm,
    (c3_grad_reset_independence traceExample.1 staleExample traceExample.2 hWF hs hr).2 0 hm⟩

/-- Claim C7: a neuron called with an input vector whose length differs
from its weight count fails with the length-mismatch error; the error
carries no heap and no handle, so no node is added to the caller's graph
(the transient zero accumulator allocated before the check is dropped),
and a layer whose first neuron fails propagates that same error. -/
theorem c7_len_mismatch_error (tq : ℚ → ℚ) (h : Heap) (n : Neuron) (input : List Nat)
    (hne : n.w.length ≠ input.length) (rest : List Neuron) :
    Neuron.output tq h n input = .error .InputLenErr ∧
    Layer.output tq h { neurons := n :: rest } input = .error .InputLenErr := by
  have h1 : Neuron.output tq h n input = .error .InputLenErr := by
    unfold Neuron.output
    rw [if_pos hne]
  refine ⟨h1, ?_⟩
  unfold Layer.output layerOutputLoop
  rw [h1]

/-- Witness for C7: a one-weight neuron applied to an empty input errors,
and so does a layer starting with it. -/
theorem c7_witness :
    (Neuron.mk [0] 1 true).w.length ≠ ([] : List Nat).length ∧
    Neuron.output (fun q => q) twoLeafExample (Neuron.mk [0] 1 true) []
      = .error .InputLenErr ∧
    Layer.output (fun q => q) twoLeafExample { neurons := [Neuron.mk [0] 1 true] } []
      = .error .InputLenErr := by
  refine ⟨by decide, ?_⟩
  exact c7_len_mismatch_error (fun q => q) twoLeafExample (Neuron.mk [0] 1 true) []
    (by decide) []

theorem mkNeurons_flags (rand : Nat → ℚ) (nin : Nat) (nl : Bool) :
    ∀ (count : Nat) (h : Heap) (ctr : Nat),
      ∀ ne ∈ (mkNeurons rand nin nl h ctr count).2.2, ne.nonlin = nl := by
  intro count
  induction count with
  | zero =>
    intro h ctr ne hne
    simp [mkNeurons] at hne
  | succ c ih =>
    intro h ctr ne hne
    unfold mkNeurons at hne
    rcases List.mem_cons.mp hne with rfl | hne2
    · rfl
    · exact ih _ _ ne hne2

theorem layerNew_flags (h : Heap) (rand : Nat → ℚ) (ctr nin nout : Nat) (nl : Bool) :
    ∀ ne ∈ (Layer.new h rand ctr nin nout nl).2.2.neurons, ne.nonlin = nl := by
  unfold Layer.new
  exact mkNeurons_flags rand nin nl nout h ctr

theorem mkTailLayers_spec (rand : Nat → ℚ) (nouts : List Nat) :
    ∀ (idxs : List Nat) (h : Heap) (ctr : Nat),
      (mkTailLayers rand nouts h ctr idxs).2.2.length = idxs.length ∧
      ∀ k, (hk : k < (mkTailLayers rand nouts h ctr idxs).2.2.length) →
        ∀ ne ∈ ((mkTailLayers rand nouts h ctr idxs).2.2.get ⟨k, hk⟩).neurons,
          ne.nonlin = (idxs.getD k 0 != nouts.length - 2) := by
  intro idxs
  induction idxs with
  | nil =>
    intro h ctr
    exact ⟨rfl, fun k hk => absurd hk (by simp [mkTailLayers])⟩
  | cons i rest ih =>
    intro h ctr
    constructor
    · show ((mkTailLayers rand nouts _ _ rest).2.2.length + 1 = rest.length + 1)
      rw [(ih _ _).1]
    · intro k hk ne hne
      match k, hk, hne with
      | 0, hk, hne => exact layerNew_flags _ rand _ _ _ _ ne hne
      | k + 1, hk, hne =>
        refine (ih (Layer.new h rand ctr (nouts.getD i 0) (nouts.getD (i + 1) 0)
            (i != nouts.length - 2)).1
          (Layer.new h rand ctr (nouts.getD i 0) (nouts.getD (i + 1) 0)
            (i != nouts.length - 2)).2.1).2 k ?_ ne hne
        have hlen2 : (mkTailLayers rand nouts h ctr (i :: rest)).2.2.length
            = (mkTailLayers rand nouts
                (Layer.new h rand ctr (nouts.getD i 0) (nouts.getD (i + 1) 0)
                  (i != nouts.length - 2)).1
                (Layer.new h rand ctr (nouts.getD i 0) (nouts.getD (i + 1) 0)
                  (i != nouts.length - 2)).2.1 rest).2.2.length + 1 := rfl
        omega

theorem opAt_append (h : Heap) (v : Value) : (h ++ [v]).opAt h.length = v.op := by
  unfold Heap.opAt
  rw [List.get?_concat_length]
  rfl

/-- Claim C8: an MLP built from a non-empty width list has one layer per
width; every neuron of the final layer has its nonlinearity flag off —
its successful output is the raw weighted sum, whose node is the closing
bias ADD — while every neuron of each earlier layer has the flag on and
wraps its sum in a TANH node. -/
theorem c8_mlp_last_layer_linear (h : Heap) (rand : Nat → ℚ) (ctr nin : Nat)
    (nouts : List Nat) (hne : nouts ≠ []) :
    ((MLP.new h rand ctr nin nouts).2.2.layers.length = nouts.length ∧
     ∀ k, (hk : k < (MLP.new h rand ctr nin nouts).2.2.layers.length) →
       ∀ ne ∈ ((MLP.new h rand ctr nin nouts).2.2.layers.get ⟨k, hk⟩).neurons,
         ne.nonlin = (k + 1 != nouts.length)) ∧
    (∀ (tq : ℚ → ℚ) (h2 : Heap) (n : Neuron) (input : List Nat) (h3 : Heap) (o : Nat),
      Neuron.output tq h2 n input = .ok (h3, o) →
      h3.opAt o = if n.nonlin then some Op.TANH else some Op.ADD) := by
  constructor
  · have hpos : nouts.length > 0 := List.length_pos.mpr hne
    by_cases h1 : nouts.length > 1
    · have hMLP : (MLP.new h rand ctr nin nouts).2.2.layers
          = (Layer.new h rand ctr nin (nouts.getD 0 0) (0 != nouts.length - 1)).2.2
            :: (mkTailLayers rand nouts
                (Layer.new h rand ctr nin (nouts.getD 0 0) (0 != nouts.length - 1)).1
                (Layer.new h rand ctr nin (nouts.getD 0 0) (0 != nouts.length - 1)).2.1
                (List.range (nouts.length - 1))).2.2 := by
        unfold MLP.new
        rw [if_pos hpos, if_pos h1]
      have hts := mkTailLayers_spec rand nouts (List.range (nouts.length - 1))
        (Layer.new h rand ctr nin (nouts.getD 0 0) (0 != nouts.length - 1)).1
        (Layer.new h rand ctr nin (nouts.getD 0 0) (0 != nouts.length - 1)).2.1
      rw [hMLP]
      constructor
      · rw [List.length_cons, hts.1, List.length_range]
        omega
      · intro k hk ne hne2
        match k, hk, hne2 with
        | 0, hk, hne2 =>
          have hf := layerNew_flags h rand ctr nin (nouts.getD 0 0)
            (0 != nouts.length - 1) ne hne2
          rw [hf, Bool.eq_iff_iff, bne_iff_ne, bne_iff_ne]
          omega
        | k + 1, hk, hne2 =>
          have hk2 : k < (mkTailLayers rand nouts
              (Layer.new h rand ctr nin (nouts.getD 0 0) (0 != nouts.length - 1)).1
              (Layer.new h rand ctr nin (nouts.getD 0 0) (0 != nouts.length - 1)).2.1
              (List.range (nouts.length - 1))).2.2.length := by
            simp only [List.length_cons] at hk
            omega
          have hf := hts.2 k hk2 ne hne2
          have hkr : k < nouts.length - 1 := by
            rw [hts.1, List.length_range] at hk2
            exact hk2
          rw [hf, List.getD_eq_getElem _ _ (by simpa using hkr), List.getElem_range,
            Bool.eq_iff_iff, bne_iff_ne, bne_iff_ne]
          omega
    · have hlen1 : nouts.length = 1 := by omega
      have hMLP : (MLP.new h rand ctr nin nouts).2.2.layers
          = [(Layer.new h rand ctr nin (nouts.getD 0 0) (0 != nouts.length - 1)).2.2] := by
        unfold MLP.new
        rw [if_pos hpos, if_neg h1]
      rw [hMLP]
      refine ⟨by simp [hlen1], ?_⟩
      intro k hk ne hne2
      match k, hk, hne2 with
      | 0, hk, hne2 =>
        have hf := layerNew_flags h rand ctr nin (nouts.getD 0 0)
          (0 != nouts.length - 1) ne hne2
        rw [hf, Bool.eq_iff_iff, bne_iff_ne, bne_iff_ne]
        omega
      | k + 1, hk, hne2 => exact absurd hk (by simp)
  · intro tq h2 n input h3 o hok
    unfold Neuron.output at hok
    by_cases hlen : n.w.length ≠ input.length
    · rw [if_pos hlen] at hok
      exact absurd hok (by simp)
    · rw [if_neg hlen] at hok
      cases hnl : n.nonlin with
      | true =>
        simp only [hnl, if_true, Except.ok.injEq, Prod.mk.injEq] at hok
        obtain ⟨hh, ho⟩ := hok
        subst hh
        subst ho
        simp only [hnl, if_true]
        exact opAt_append _ _
      | false =>
        simp only [hnl, if_false, Bool.false_eq_true, Except.ok.injEq, Prod.mk.injEq] at hok
        obtain ⟨hh, ho⟩ := hok
        subst hh
        subst ho
        simp only [hnl, if_false, Bool.false_eq_true]
        exact opAt_append _ _

/-- Witness for C8 at the spec's shape scenario (widths [4, 4, 1]): three
layers, the first two nonlinear and the last linear. -/
theorem c8_witness :
    (([4, 4, 1] : List Nat) ≠ []) ∧
    (MLP.new [] (fun _ => 0) 0 3 [4, 4, 1]).2.2.layers.length = 3 ∧
    (∀ k, (hk : k < (MLP.new [] (fun _ => 0) 0 3 [4, 4, 1]).2.2.layers.length) →
      ∀ ne ∈ ((MLP.new [] (fun _ => 0) 0 3 [4, 4, 1]).2.2.layers.get ⟨k, hk⟩).neurons,
        ne.nonlin = (k + 1 != 3)) := by
  have hmain := c8_mlp_last_layer_linear [] (fun _ => 0) 0 3 [4, 4, 1] (by decide)
  exact ⟨by decide, hmain.1.1, hmain.1.2⟩

/-- Witness for the amended C6: the leaf `a` (index 0) of the trace
example is reachable from the root and indeed appears in its traverse
list. -/
theorem c6_witness :
    traceExample.1.WF ∧ (0 : Nat) ∈ Scalar.traverse traceExample.1 traceExample.2 := by
  have hWF : traceExample.1.WF := by decide
  refine ⟨hWF, c6_amended_reachable_complete traceExample.1 traceExample.2 hWF 0 ?_⟩
  have h1 : Reachable traceExample.1 traceExample.2 3 :=
    Reachable.step Reachable.refl (by decide)
  exact Reachable.step h1 (by decide)

/-- Witness for C10 on concrete data: in a heap of two distinct leaves
both holding 5, the public equality compares them equal. -/
theorem c10_witness :
    (0 : Nat) ≠ 1 ∧ twoLeafExample.dataAt 0 = twoLeafExample.dataAt 1 ∧
    Scalar.eq twoLeafExample 0 1 = true := by
  refine ⟨by decide, by norm_num [twoLeafExample, Scalar.new, Heap.dataAt], ?_⟩
  exact c10_data_equality.2.2 twoLeafExample 0 1 (by decide)
    (by norm_num [twoLeafExample, Scalar.new, Heap.dataAt])

end Micrograd
